import Mathlib

/-!
Verification of the text-analysis utility `src/textUtils.js`.

JavaScript strings are modelled as `List Char`, and a possibly absent or
`null` argument as `Option (List Char)` (`none` = absent/null).  The
character class of the JavaScript regex `\s` — which is also exactly the set
of characters removed by `String.prototype.trim` — is modelled by `isWS`.
-/

/-- The character class of the JavaScript regex `\s` (equally, the set of
characters removed by `String.prototype.trim`): tab, line feed, vertical tab,
form feed, carriage return, space, no-break space, Ogham space mark, the
range U+2000–U+200A, line separator, paragraph separator, narrow no-break
space, medium mathematical space, ideographic space, and the byte-order
mark. -/
def isWS (c : Char) : Bool :=
  c == '\t' || c == '\n' || c.val == 0x000B || c.val == 0x000C || c == '\r' ||
  c == ' ' || c.val == 0x00A0 || c.val == 0x1680 ||
  (0x2000 ≤ c.val && c.val ≤ 0x200A) ||
  c.val == 0x2028 || c.val == 0x2029 || c.val == 0x202F || c.val == 0x205F ||
  c.val == 0x3000 || c.val == 0xFEFF

/-- JavaScript `text.trim()`: remove leading and trailing `\s` characters. -/
def trim (s : List Char) : List Char :=
  ((s.dropWhile isWS).reverse.dropWhile isWS).reverse

/-- JavaScript `s.split(/\s+/)`, scanning left to right.  `acc` holds
(reversed) the characters of the piece currently being read, and `inSep` is
true while the scanner is inside a run of `\s` characters (a separator, i.e.
a match of `\s+`).  A piece is emitted at the start of each separator and at
the end of the string, so the empty pieces that JavaScript produces when the
string starts or ends with a separator are produced here as well. -/
def splitWSAux : List Char → List Char → Bool → List (List Char)
  | [], acc, _ => [acc.reverse]
  | c :: cs, acc, inSep =>
    if isWS c then
      if inSep then splitWSAux cs acc true
      else acc.reverse :: splitWSAux cs [] true
    else splitWSAux cs (c :: acc) false

/-- JavaScript `s.split(/\s+/)`. -/
def splitWS (s : List Char) : List (List Char) := splitWSAux s [] false

/-- `wordCount` from `src/textUtils.js`:
`if (!text || text.trim() === '') return 0;`
`return text.trim().split(/\s+/).length;`
(for a value in the documented domain, `!text` is true exactly on
`null`/absent and on the empty string). -/
def wordCount : Option (List Char) → Nat
  | none => 0
  | some t =>
    if t = [] then 0
    else if trim t = [] then 0
    else (splitWS (trim t)).length

/-- `charCount` from `src/textUtils.js`:
`if (!text) return 0;`
`return text.replace(/\s/g, '').length;` -/
def charCount : Option (List Char) → Nat
  | none => 0
  | some t => if t = [] then 0 else (t.filter (fun c => !isWS c)).length

/-- The constant `WORDS_PER_MINUTE` from `readingTime`. -/
def WORDS_PER_MINUTE : Nat := 200

/-- `readingTime` from `src/textUtils.js`:
`return Math.ceil(words / WORDS_PER_MINUTE);` with
`words = wordCount(text)`; the numeric division is modelled exactly, as
rational division. -/
def readingTime (text : Option (List Char)) : Nat :=
  Nat.ceil ((wordCount text : ℚ) / (WORDS_PER_MINUTE : ℚ))

/-- Specification-side count of the maximal runs of non-whitespace characters
of a string (the spec's glossary defines a word as exactly such a run).  The
flag `inRun` records whether the previous character was non-whitespace; a run
is counted at its first character, i.e. at each non-whitespace character that
is not preceded by a non-whitespace character. -/
def runCountAux : List Char → Bool → Nat
  | [], _ => 0
  | c :: cs, inRun =>
    if isWS c then runCountAux cs false
    else if inRun then runCountAux cs true
    else runCountAux cs true + 1

/-- Specification-side word count: the number of maximal runs of
non-whitespace characters. -/
def runCount (s : List Char) : Nat := runCountAux s false

/-- The first character of `s` exists and is whitespace. -/
def startsWS (s : List Char) : Bool :=
  match s with
  | [] => false
  | c :: _ => isWS c

/-- The last character of `s` exists and is whitespace. -/
def lastWS (s : List Char) : Bool := startsWS s.reverse

/-- A canonical text with exactly `n` words: `n` copies of the letter `w`
separated by single spaces. -/
def mkWords : Nat → List Char
  | 0 => []
  | 1 => ['w']
  | n + 2 => 'w' :: ' ' :: mkWords (n + 1)

example : wordCount (some "The quick brown fox".toList) = 4 := by decide
example : wordCount (some "hello   world".toList) = 2 := by decide
example : wordCount (some "  hello world  ".toList) = 2 := by decide
example : wordCount (some []) = 0 := by decide
example : wordCount none = 0 := by decide
example : wordCount (some "   ".toList) = 0 := by decide
example : wordCount (some "hello".toList) = 1 := by decide
example : charCount (some "hello world".toList) = 10 := by decide
example : charCount (some ['a', '\t', 'b', '\n', 'c']) = 3 := by decide
example : runCount "The quick brown fox".toList = 4 := by decide
example : runCount "  hello world  ".toList = 2 := by decide

/-- Number of separators (maximal runs of whitespace characters) of `s`;
`inSep` records whether the previous character was whitespace. -/
def wsRunsAux : List Char → Bool → Nat
  | [], _ => 0
  | c :: cs, inSep =>
    if isWS c then
      if inSep then wsRunsAux cs true
      else wsRunsAux cs true + 1
    else wsRunsAux cs false

lemma splitWSAux_length : ∀ (s acc : List Char) (b : Bool),
    (splitWSAux s acc b).length = wsRunsAux s b + 1 := by
  intro s
  induction s with
  | nil => intro acc b; rfl
  | cons c cs ih =>
    intro acc b
    by_cases hc : isWS c = true
    · cases b <;> simp [splitWSAux, wsRunsAux, hc, ih]
    · simp [splitWSAux, wsRunsAux, hc, ih]

lemma startsWS_append (l r : List Char) (h : l ≠ []) :
    startsWS (l ++ r) = startsWS l := by
  cases l with
  | nil => exact absurd rfl h
  | cons c cs => rfl

lemma startsWS_dropWhile (s : List Char) : startsWS (s.dropWhile isWS) = false := by
  induction s with
  | nil => rfl
  | cons c cs ih =>
    by_cases hc : isWS c = true
    · rw [List.dropWhile_cons, if_pos hc]; exact ih
    · have hc' : isWS c = false := by simpa using hc
      rw [List.dropWhile_cons, if_neg hc]
      simpa [startsWS] using hc'

lemma lastWS_cons (c : Char) (cs : List Char) (h : cs ≠ []) :
    lastWS (c :: cs) = lastWS cs := by
  unfold lastWS
  rw [List.reverse_cons, startsWS_append _ _ (by simpa using h)]

lemma runCountAux_eq_wsRunsAux : ∀ s : List Char, lastWS s = false →
    runCountAux s true = wsRunsAux s false ∧
    (s ≠ [] → runCountAux s false = wsRunsAux s true + 1) := by
  intro s
  induction s with
  | nil => intro _; exact ⟨rfl, fun h => absurd rfl h⟩
  | cons c cs ih =>
    intro hlast
    by_cases hc : isWS c = true
    · have hcs : cs ≠ [] := by
        intro h
        subst h
        simp [lastWS, startsWS, hc] at hlast
      have hlcs : lastWS cs = false := (lastWS_cons c cs hcs) ▸ hlast
      have h3 := (ih hlcs).2 hcs
      refine ⟨?_, fun _ => ?_⟩ <;> simpa [runCountAux, wsRunsAux, hc] using h3
    · rcases eq_or_ne cs [] with hcs | hcs
      · subst hcs
        exact ⟨by simp [runCountAux, wsRunsAux, hc], fun _ => by simp [runCountAux, wsRunsAux, hc]⟩
      · have hlcs : lastWS cs = false := (lastWS_cons c cs hcs) ▸ hlast
        have h1 := (ih hlcs).1
        refine ⟨?_, fun _ => ?_⟩ <;> simpa [runCountAux, wsRunsAux, hc] using h1

lemma runCountAux_all_ws (s : List Char) (h : ∀ c ∈ s, isWS c = true) :
    ∀ b, runCountAux s b = 0 := by
  induction s with
  | nil => intro b; rfl
  | cons c cs ih =>
    intro b
    have hc : isWS c = true := h c (List.mem_cons_self c cs)
    simp only [runCountAux, hc, if_true]
    exact ih (fun x hx => h x (List.mem_cons_of_mem c hx)) false

lemma trim_eq_nil_all_ws (t : List Char) (h : trim t = []) : ∀ c ∈ t, isWS c = true := by
  unfold trim at h
  rw [List.reverse_eq_nil_iff, List.dropWhile_eq_nil_iff] at h
  intro c hc
  have hc' : c ∈ List.takeWhile isWS t ++ List.dropWhile isWS t := by
    rw [List.takeWhile_append_dropWhile]; exact hc
  rcases List.mem_append.mp hc' with h1 | h2
  · exact List.mem_takeWhile_imp h1
  · exact h c (List.mem_reverse.mpr h2)

lemma startsWS_trim (t : List Char) : startsWS (trim t) = false := by
  unfold trim
  set u := t.dropWhile isWS with hu
  by_cases hv : u.reverse.dropWhile isWS = []
  · rw [hv]; rfl
  · have hsuf : u.reverse.dropWhile isWS <:+ u.reverse := List.dropWhile_suffix isWS
    rcases hsuf with ⟨p, hp⟩
    have h2 := congrArg List.reverse hp
    rw [List.reverse_append, List.reverse_reverse] at h2
    have hne : (u.reverse.dropWhile isWS).reverse ≠ [] := by simpa using hv
    calc startsWS (u.reverse.dropWhile isWS).reverse
        = startsWS ((u.reverse.dropWhile isWS).reverse ++ p.reverse) :=
          (startsWS_append _ _ hne).symm
      _ = startsWS u := by rw [h2]
      _ = false := startsWS_dropWhile t

lemma lastWS_trim (t : List Char) : lastWS (trim t) = false := by
  unfold lastWS trim
  rw [List.reverse_reverse]
  exact startsWS_dropWhile _

lemma runCountAux_append_ws (w : List Char) (hw : ∀ c ∈ w, isWS c = true) :
    ∀ (l : List Char) (b : Bool), runCountAux (l ++ w) b = runCountAux l b := by
  intro l
  induction l with
  | nil => intro b; simpa using runCountAux_all_ws w hw b
  | cons c cs ih =>
    intro b
    by_cases hc : isWS c = true <;> cases b <;>
      simp [runCountAux, hc, ih]

lemma runCountAux_dropWhile (t : List Char) :
    runCountAux (t.dropWhile isWS) false = runCountAux t false := by
  induction t with
  | nil => rfl
  | cons c cs ih =>
    by_cases hc : isWS c = true
    · rw [List.dropWhile_cons, if_pos hc, ih]
      simp [runCountAux, hc]
    · rw [List.dropWhile_cons, if_neg hc]

lemma runCount_trim (t : List Char) : runCount (trim t) = runCount t := by
  unfold runCount
  set u := t.dropWhile isWS with hu
  have hsplit : u.reverse.takeWhile isWS ++ u.reverse.dropWhile isWS = u.reverse :=
    List.takeWhile_append_dropWhile isWS u.reverse
  have h2 := congrArg List.reverse hsplit
  rw [List.reverse_append, List.reverse_reverse] at h2
  have hws : ∀ c ∈ (u.reverse.takeWhile isWS).reverse, isWS c = true :=
    fun c hc => List.mem_takeWhile_imp (List.mem_reverse.mp hc)
  calc runCountAux (trim t) false
      = runCountAux ((u.reverse.dropWhile isWS).reverse) false := rfl
    _ = runCountAux ((u.reverse.dropWhile isWS).reverse ++
          (u.reverse.takeWhile isWS).reverse) false :=
        (runCountAux_append_ws _ hws _ _).symm
    _ = runCountAux u false := by rw [h2]
    _ = runCountAux t false := runCountAux_dropWhile t

lemma wordCount_eq_runCount (t : List Char) : wordCount (some t) = runCount t := by
  rcases eq_or_ne t [] with h0 | h0
  · subst h0; rfl
  rcases eq_or_ne (trim t) [] with h1 | h1
  · have hz : runCountAux t false = 0 := runCountAux_all_ws t (trim_eq_nil_all_ws t h1) false
    simp [wordCount, h0, h1, runCount, hz]
  · have hrc : runCountAux (trim t) false = wsRunsAux (trim t) false + 1 := by
      rcases htrim : trim t with _ | ⟨c, cs⟩
      · exact absurd htrim h1
      · have hc : isWS c = false := by
          have hs := startsWS_trim t
          rw [htrim] at hs
          simpa [startsWS] using hs
        rcases eq_or_ne cs [] with hnil | hne
        · subst hnil; simp [runCountAux, wsRunsAux, hc]
        · have hlcs : lastWS cs = false := by
            have hl := lastWS_trim t
            rw [htrim, lastWS_cons c cs hne] at hl
            exact hl
          have h1' := (runCountAux_eq_wsRunsAux cs hlcs).1
          simp [runCountAux, wsRunsAux, hc, h1']
    calc wordCount (some t)
        = (splitWS (trim t)).length := by simp [wordCount, h0, h1]
      _ = wsRunsAux (trim t) false + 1 := splitWSAux_length (trim t) [] false
      _ = runCountAux (trim t) false := hrc.symm
      _ = runCount t := runCount_trim t

lemma natCeil_div_200 (w : Nat) : Nat.ceil ((w : ℚ) / 200) = (w + 199) / 200 := by
  apply le_antisymm
  · rw [Nat.ceil_le, div_le_iff₀ (by norm_num : (0:ℚ) < 200)]
    have hq : w ≤ ((w + 199) / 200) * 200 := by
      have hdm := Nat.div_add_mod (w + 199) 200
      have hm : (w + 199) % 200 < 200 := Nat.mod_lt _ (by norm_num)
      omega
    exact_mod_cast hq
  · have h1 : (w : ℚ) / 200 ≤ (Nat.ceil ((w : ℚ) / 200) : ℚ) := Nat.le_ceil _
    rw [div_le_iff₀ (by norm_num : (0:ℚ) < 200)] at h1
    have h2 : w ≤ Nat.ceil ((w : ℚ) / 200) * 200 := by exact_mod_cast h1
    rw [Nat.div_le_iff_le_mul_add_pred (by norm_num : 0 < 200)]
    omega

lemma readingTime_ceil (t : Option (List Char)) :
    readingTime t = Nat.ceil ((wordCount t : ℚ) / 200) := by
  unfold readingTime WORDS_PER_MINUTE
  norm_num

lemma readingTime_eq (t : Option (List Char)) :
    readingTime t = (wordCount t + 199) / 200 := by
  rw [readingTime_ceil]
  exact natCeil_div_200 (wordCount t)

lemma charCount_eq_countP (s : List Char) :
    charCount (some s) = s.countP (fun c => !isWS c) := by
  rcases eq_or_ne s [] with h | h
  · subst h; rfl
  · simp [charCount, h, List.countP_eq_length_filter]

lemma runCount_mkWords (n : Nat) : runCount (mkWords n) = n := by
  match n with
  | 0 => rfl
  | 1 => decide
  | n + 2 =>
    have ih : runCountAux (mkWords (n + 1)) false = n + 1 := runCount_mkWords (n + 1)
    show runCountAux ('w' :: ' ' :: mkWords (n + 1)) false = n + 2
    have hw : isWS 'w' = false := by decide
    have hs : isWS ' ' = true := by decide
    simp [runCountAux, hw, hs, ih]

lemma runCountAux_all_nws (s : List Char) (h : ∀ c ∈ s, isWS c = false) :
    runCountAux s true = 0 ∧ (s ≠ [] → runCountAux s false = 1) := by
  induction s with
  | nil => exact ⟨rfl, fun h => absurd rfl h⟩
  | cons c cs ih =>
    have hc : isWS c = false := h c (List.mem_cons_self c cs)
    have ih' := ih (fun x hx => h x (List.mem_cons_of_mem c hx))
    exact ⟨by simp [runCountAux, hc, ih'.1], fun _ => by simp [runCountAux, hc, ih'.1]⟩

lemma runCountAux_le_countP (s : List Char) :
    ∀ b, runCountAux s b ≤ s.countP (fun c => !isWS c) := by
  induction s with
  | nil => intro b; simp [runCountAux]
  | cons c cs ih =>
    intro b
    have h1 := ih true
    have h2 := ih false
    by_cases hc : isWS c = true <;> cases b <;>
      simp [runCountAux, hc, List.countP_cons] <;> omega

lemma runCountAux_ws_run (w : List Char) (hw : ∀ c ∈ w, isWS c = true) :
    ∀ (v : List Char) (b : Bool), w ≠ [] →
      runCountAux (w ++ v) b = runCountAux v false := by
  induction w with
  | nil => intro v b h; exact absurd rfl h
  | cons c cs ih =>
    intro v b _
    have hc : isWS c = true := hw c (List.mem_cons_self c cs)
    rcases eq_or_ne cs [] with hnil | hne
    · subst hnil; simp [runCountAux, hc]
    · have hcs : runCountAux (cs ++ v) false = runCountAux v false :=
        ih (fun x hx => hw x (List.mem_cons_of_mem c hx)) v false hne
      simp [runCountAux, hc, hcs]

lemma runCountAux_peel (v₁ v₂ : List Char)
    (h : ∀ b, runCountAux v₁ b = runCountAux v₂ b) :
    ∀ (u : List Char) (b : Bool), runCountAux (u ++ v₁) b = runCountAux (u ++ v₂) b := by
  intro u
  induction u with
  | nil => intro b; exact h b
  | cons c cs ih =>
    intro b
    by_cases hc : isWS c = true <;> cases b <;> simp [runCountAux, hc, ih]

lemma runCount_ws_indep (u v w₁ w₂ : List Char)
    (h₁ : ∀ c ∈ w₁, isWS c = true) (h₂ : ∀ c ∈ w₂, isWS c = true)
    (hn₁ : w₁ ≠ []) (hn₂ : w₂ ≠ []) :
    runCount (u ++ w₁ ++ v) = runCount (u ++ w₂ ++ v) := by
  unfold runCount
  rw [List.append_assoc, List.append_assoc]
  refine runCountAux_peel (w₁ ++ v) (w₂ ++ v) (fun b => ?_) u false
  rw [runCountAux_ws_run w₁ h₁ v b hn₁, runCountAux_ws_run w₂ h₂ v b hn₂]

/-- A representative set of ASCII punctuation characters, for the spec's
example of punctuation-only tokens (a lone hyphen or punctuation mark). -/
def punctChars : List Char :=
  ['!', '"', '#', '$', '%', '&', '(', ')', '*', '+', ',', '-', '.', '/',
   ':', ';', '<', '=', '>', '?', '@', '[', ']', '^', '_', '|', '~']

/-- `c` is a punctuation character. -/
def isPunct (c : Char) : Bool := punctChars.contains c

lemma isPunct_not_ws (c : Char) (h : isPunct c = true) : isWS c = false := by
  have hc : c ∈ punctChars := by simpa [isPunct] using h
  fin_cases hc <;> decide

/-- C1: for every input in the domain, `readingTime text` equals the ceiling
of `wordCount text` divided by 200 (stated both as the rational ceiling and
by its integer-arithmetic characterization `(w + 199) / 200`); in particular
an input with exactly 200 words yields 1, with 201 words yields 2, and with
zero words yields 0. -/
theorem readingTime_is_ceil_of_wordCount :
    (∀ t : Option (List Char),
      readingTime t = Nat.ceil ((wordCount t : ℚ) / 200) ∧
      readingTime t = (wordCount t + 199) / 200) ∧
    readingTime (some (mkWords 200)) = 1 ∧
    readingTime (some (mkWords 201)) = 2 ∧
    readingTime none = 0 := by
  have h200 : wordCount (some (mkWords 200)) = 200 := by
    rw [wordCount_eq_runCount, runCount_mkWords]
  have h201 : wordCount (some (mkWords 201)) = 201 := by
    rw [wordCount_eq_runCount, runCount_mkWords]
  refine ⟨fun t => ⟨readingTime_ceil t, readingTime_eq t⟩, ?_, ?_, ?_⟩
  · rw [readingTime_eq, h200]
  · rw [readingTime_eq, h201]
  · rw [readingTime_eq]; rfl

/-- C2: `wordCount` returns 0 on an absent/null, empty or whitespace-only
input, and on every string returns the number of maximal runs of
non-whitespace characters (`runCount`, the spec-side tokenization). -/
theorem wordCount_matches_spec :
    wordCount none = 0 ∧
    wordCount (some []) = 0 ∧
    (∀ s : List Char, (∀ c ∈ s, isWS c = true) → wordCount (some s) = 0) ∧
    (∀ s : List Char, wordCount (some s) = runCount s) := by
  refine ⟨rfl, rfl, ?_, wordCount_eq_runCount⟩
  intro s hs
  rw [wordCount_eq_runCount]
  exact runCountAux_all_ws s hs false

theorem wordCount_matches_spec_witness :
    (∀ c ∈ [' ', '\t', '\n'], isWS c = true) ∧
    wordCount (some [' ', '\t', '\n']) = 0 :=
  ⟨by decide, wordCount_matches_spec.2.2.1 [' ', '\t', '\n'] (by decide)⟩

/-- C3: `charCount` returns 0 on an absent/null or empty input, and on every
string returns the number of non-whitespace characters (the length after
removing every whitespace character); consequently a whitespace-only string
returns 0. -/
theorem charCount_matches_spec :
    charCount none = 0 ∧
    charCount (some []) = 0 ∧
    (∀ s : List Char, charCount (some s) = s.countP (fun c => !isWS c)) ∧
    (∀ s : List Char, (∀ c ∈ s, isWS c = true) → charCount (some s) = 0) := by
  refine ⟨rfl, rfl, charCount_eq_countP, ?_⟩
  intro s hs
  rw [charCount_eq_countP, List.countP_eq_zero]
  intro c hc
  simp [hs c hc]

theorem charCount_matches_spec_witness :
    (∀ c ∈ [' ', '\t'], isWS c = true) ∧ charCount (some [' ', '\t']) = 0 :=
  ⟨by decide, charCount_matches_spec.2.2.2 [' ', '\t'] (by decide)⟩

/-- C4: the three functions are total over the whole input domain (any
string, the empty string, a whitespace-only string, or an absent/null value):
in this embedding each is a total function into `ℕ`, so on every input each
returns a well-defined non-negative integer. -/
theorem functions_total (t : Option (List Char)) :
    0 ≤ (wordCount t : ℤ) ∧ 0 ≤ (charCount t : ℤ) ∧ 0 ≤ (readingTime t : ℤ) :=
  ⟨Int.natCast_nonneg _, Int.natCast_nonneg _, Int.natCast_nonneg _⟩

/-- C5: inserting additional consecutive whitespace between two words does
not change `wordCount`: any two non-empty all-whitespace runs placed between
the same surrounding text give the same word count. -/
theorem wordCount_whitespace_insensitive
    (u v w₁ w₂ : List Char)
    (hn₁ : w₁ ≠ []) (hn₂ : w₂ ≠ [])
    (h₁ : ∀ c ∈ w₁, isWS c = true) (h₂ : ∀ c ∈ w₂, isWS c = true) :
    wordCount (some (u ++ w₁ ++ v)) = wordCount (some (u ++ w₂ ++ v)) := by
  rw [wordCount_eq_runCount, wordCount_eq_runCount]
  exact runCount_ws_indep u v w₁ w₂ h₁ h₂ hn₁ hn₂

theorem wordCount_whitespace_insensitive_witness :
    ([' '] ≠ ([] : List Char)) ∧ ([' ', ' ', '\t'] ≠ ([] : List Char)) ∧
    (∀ c ∈ [' '], isWS c = true) ∧ (∀ c ∈ [' ', ' ', '\t'], isWS c = true) ∧
    wordCount (some (['a'] ++ [' '] ++ ['b'])) =
      wordCount (some (['a'] ++ [' ', ' ', '\t'] ++ ['b'])) :=
  ⟨by decide, by decide, by decide, by decide,
    wordCount_whitespace_insensitive ['a'] ['b'] [' '] [' ', ' ', '\t']
      (by decide) (by decide) (by decide) (by decide)⟩

/-- C6: a non-empty string with no internal whitespace is a single word. -/
theorem wordCount_single_word (s : List Char) (hne : s ≠ [])
    (h : ∀ c ∈ s, isWS c = false) : wordCount (some s) = 1 := by
  rw [wordCount_eq_runCount]
  exact (runCountAux_all_nws s h).2 hne

theorem wordCount_single_word_witness :
    ("hello".toList ≠ []) ∧ (∀ c ∈ "hello".toList, isWS c = false) ∧
    wordCount (some "hello".toList) = 1 :=
  ⟨by decide, by decide, wordCount_single_word "hello".toList (by decide) (by decide)⟩

/-- C7: tokenization is purely whitespace-based with no special-casing of
punctuation: a string that is a single maximal run of punctuation characters
(e.g. a lone hyphen) is counted as one word. -/
theorem wordCount_punctuation_token (s : List Char) (hne : s ≠ [])
    (h : ∀ c ∈ s, isPunct c = true) : wordCount (some s) = 1 := by
  rw [wordCount_eq_runCount]
  exact (runCountAux_all_nws s (fun c hc => isPunct_not_ws c (h c hc))).2 hne

theorem wordCount_punctuation_token_witness :
    (['-'] ≠ ([] : List Char)) ∧ (∀ c ∈ ['-'], isPunct c = true) ∧
    wordCount (some ['-']) = 1 :=
  ⟨by decide, by decide, wordCount_punctuation_token ['-'] (by decide) (by decide)⟩

/-- C8: each of the three functions is deterministic: two invocations with
equal inputs give equal results.  (In this embedding each function is a pure
function of its argument, so there is no other state an invocation could
read or write.) -/
theorem functions_deterministic (t₁ t₂ : Option (List Char)) (h : t₁ = t₂) :
    wordCount t₁ = wordCount t₂ ∧ charCount t₁ = charCount t₂ ∧
    readingTime t₁ = readingTime t₂ := by
  subst h
  exact ⟨rfl, rfl, rfl⟩

theorem functions_deterministic_witness :
    wordCount (some ['a']) = wordCount (some ['a']) ∧
    charCount (some ['a']) = charCount (some ['a']) ∧
    readingTime (some ['a']) = readingTime (some ['a']) :=
  functions_deterministic (some ['a']) (some ['a']) rfl

/-- C9: on every input the word count never exceeds the non-whitespace
character count: each word contains at least one non-whitespace character. -/
theorem wordCount_le_charCount (t : Option (List Char)) :
    wordCount t ≤ charCount t := by
  rcases t with _ | s
  · exact le_refl 0
  · rw [wordCount_eq_runCount, charCount_eq_countP]
    exact runCountAux_le_countP s false

/-- C10: the reading time is 0 exactly on inputs with no words; every input
containing at least one word takes at least 1 minute. -/
theorem readingTime_eq_zero_iff (t : Option (List Char)) :
    readingTime t = 0 ↔ wordCount t = 0 := by
  rw [readingTime_eq]
  constructor
  · intro h
    have hlt := (Nat.div_eq_zero_iff (by norm_num : (0:ℕ) < 200)).mp h
    omega
  · intro h
    rw [h]
